import Mathlib

set_option maxRecDepth 8192

/-!
Verification of the patcher script `fix_relation_builder.py`.

The script reads one file as UTF-8 text, performs one literal
`str.replace(needle, replacement)` on the decoded content, and writes the
result back to the same path, truncating the old content.

The embedding models:
  * Python strings as `List Char` (sequences of unicode scalar values);
  * `str.replace` as `pyReplace`, the literal, non-overlapping,
    left-to-right replacement of every occurrence;
  * the strict UTF-8 codec used by `open(..., encoding="utf-8")` as
    `utf8Encode` / `utf8Decode` over byte lists;
  * the universal-newline translation that Python text mode (newline=None)
    performs unconditionally: on read `\r\n` and lone `\r` become `\n`
    (`rtranslate`), on write `\n` becomes `os.linesep` (`wtranslate`,
    parameterised by the platform separator: `['\n']` on POSIX,
    `['\r', '\n']` on Windows, where the hardcoded path suggests the
    script actually ran);
  * the filesystem as an association list from paths to files carrying
    byte content plus readability and writability flags;
  * the whole script as `apply_patch`, following the control flow
    open-read-decode-translate / replace / translate-encode-truncate-write,
    with the error outcomes FileNotFoundError, PermissionError and
    UnicodeDecodeError.
-/

/-- Boolean test that `p` is a leading segment of `s`. -/
def isPre : List Char → List Char → Bool
  | [], _ => true
  | _ :: _, [] => false
  | a :: p, b :: s => a == b && isPre p s

/-- The pattern `pat` occurs in `s` at position `k`. -/
def occursAt (s pat : List Char) (k : Nat) : Prop :=
  isPre pat (s.drop k) = true

instance (s pat : List Char) (k : Nat) : Decidable (occursAt s pat k) := by
  unfold occursAt; infer_instance

/-- Single pass check that `pat` occurs nowhere in the subject list. -/
def noOcc (pat : List Char) : List Char → Bool
  | [] => true
  | s@(_ :: t) => !(isPre pat s) && noOcc pat t

/-- Single pass check that no nonempty tail segment of the subject list is a
leading segment of `N`. -/
def noTailLead (N : List Char) : List Char → Bool
  | [] => true
  | s@(_ :: t) => !(isPre s N) && noTailLead N t

/-- Single pass check that every nonempty tail segment `s` of the subject
list is incomparable with `R`: neither of `s` and `R` leads the other. -/
def tailsIncomparable (R : List Char) : List Char → Bool
  | [] => true
  | s@(_ :: t) => !(isPre s R) && !(isPre R s) && tailsIncomparable R t

/-- Fuel-indexed worker for the replacement scan of `str.replace`. -/
def replaceFuel (N R : List Char) : Nat → List Char → List Char
  | _, [] => []
  | 0, s => s
  | f + 1, c :: t =>
    if isPre N (c :: t) then R ++ replaceFuel N R f ((c :: t).drop N.length)
    else c :: replaceFuel N R f t

/-- Replacement with the empty needle: Python inserts the replacement before
every character and once at the end. -/
def emptyReplace (R : List Char) : List Char → List Char
  | [] => R
  | c :: t => R ++ c :: emptyReplace R t

/-- Model of Python `s.replace(N, R)`: every exact, non-overlapping
occurrence of `N` in `s` is replaced by `R`, scanning left to right. -/
def pyReplace (s N R : List Char) : List Char :=
  if N.isEmpty then emptyReplace R s else replaceFuel N R s.length s

theorem isPre_nil (s : List Char) : isPre [] s = true := by
  cases s <;> rfl

theorem isPre_eq_true_iff (p s : List Char) :
    isPre p s = true ↔ ∃ t, s = p ++ t := by
  induction p generalizing s with
  | nil => simp [isPre_nil]
  | cons a p ih =>
    cases s with
    | nil => simp [isPre]
    | cons b s =>
      simp only [isPre, Bool.and_eq_true, beq_iff_eq, ih]
      constructor
      · rintro ⟨rfl, t, rfl⟩; exact ⟨t, rfl⟩
      · rintro ⟨t, ht⟩
        injection ht with h1 h2
        exact ⟨h1.symm, t, h2⟩

theorem isPre_append_self (p t : List Char) : isPre p (p ++ t) = true :=
  (isPre_eq_true_iff p (p ++ t)).mpr ⟨t, rfl⟩

theorem isPre_length_le (p s : List Char) (h : isPre p s = true) :
    p.length ≤ s.length := by
  obtain ⟨t, rfl⟩ := (isPre_eq_true_iff p s).mp h
  simp

theorem isPre_ne_nil {p s : List Char} (hp : p ≠ []) (h : isPre p s = true) :
    s ≠ [] := by
  obtain ⟨t, rfl⟩ := (isPre_eq_true_iff p s).mp h
  cases p with
  | nil => exact absurd rfl hp
  | cons a p => simp

theorem isPre_append_cases (q r x : List Char) (h : isPre q (r ++ x) = true) :
    isPre q r = true ∨ isPre r q = true := by
  induction q generalizing r with
  | nil => exact Or.inl (isPre_nil r)
  | cons a q ih =>
    cases r with
    | nil => exact Or.inr (isPre_nil (a :: q))
    | cons b r =>
      simp only [List.cons_append, isPre, Bool.and_eq_true, beq_iff_eq] at h ⊢
      obtain ⟨rfl, h2⟩ := h
      rcases ih r h2 with h3 | h3
      · exact Or.inl ⟨rfl, h3⟩
      · exact Or.inr ⟨rfl, h3⟩

theorem drop_append_len (P X : List Char) (k : Nat) :
    (P ++ X).drop (P.length + k) = X.drop k := by
  simp [List.drop_append]

theorem drop_append_exact (P X : List Char) :
    (P ++ X).drop P.length = X := by
  have := drop_append_len P X 0
  simpa using this

theorem occursAt_zero (s pat : List Char) :
    occursAt s pat 0 ↔ isPre pat s = true := by
  simp [occursAt]

theorem occursAt_cons_succ (c : Char) (t pat : List Char) (k : Nat) :
    occursAt (c :: t) pat (k + 1) ↔ occursAt t pat k := by
  simp [occursAt]

theorem occursAt_shift (P X pat : List Char) (k : Nat) :
    occursAt X pat k ↔ occursAt (P ++ X) pat (P.length + k) := by
  unfold occursAt
  rw [drop_append_len]

theorem occursAt_lt {s pat : List Char} {k : Nat} (hp : pat ≠ [])
    (h : occursAt s pat k) : k < s.length := by
  unfold occursAt at h
  have hne := isPre_ne_nil hp h
  by_contra hk
  push_neg at hk
  rw [List.drop_eq_nil_of_le hk] at hne
  exact hne rfl

theorem no_occ_of_bounded {s pat : List Char} (hp : pat ≠ [])
    (h : ∀ k < s.length, ¬ occursAt s pat k) : ∀ k, ¬ occursAt s pat k := by
  intro k hk
  exact h k (occursAt_lt hp hk) hk

theorem noOcc_spec (pat : List Char) (hp : pat ≠ []) :
    ∀ s, noOcc pat s = true → ∀ k, ¬ occursAt s pat k := by
  intro s
  induction s with
  | nil =>
    intro _ k hk
    unfold occursAt at hk
    rw [List.drop_nil] at hk
    cases pat with
    | nil => exact hp rfl
    | cons a p => simp [isPre] at hk
  | cons c t ih =>
    intro h k hk
    simp only [noOcc, Bool.and_eq_true, Bool.not_eq_true'] at h
    obtain ⟨h1, h2⟩ := h
    cases k with
    | zero =>
      rw [occursAt_zero] at hk
      rw [h1] at hk
      exact Bool.false_ne_true hk
    | succ k =>
      rw [occursAt_cons_succ] at hk
      exact ih h2 k hk

theorem noTailLead_spec (N : List Char) :
    ∀ s, noTailLead N s = true → ∀ i < s.length, isPre (s.drop i) N = false := by
  intro s
  induction s with
  | nil => intro _ i hi; simp at hi
  | cons c t ih =>
    intro h i hi
    simp only [noTailLead, Bool.and_eq_true, Bool.not_eq_true'] at h
    obtain ⟨h1, h2⟩ := h
    cases i with
    | zero => simpa using h1
    | succ i =>
      simp only [List.drop_succ_cons]
      exact ih h2 i (by simpa using hi)

theorem tailsIncomparable_spec (R : List Char) :
    ∀ s, tailsIncomparable R s = true →
      ∀ i < s.length, isPre (s.drop i) R = false ∧ isPre R (s.drop i) = false := by
  intro s
  induction s with
  | nil => intro _ i hi; simp at hi
  | cons c t ih =>
    intro h i hi
    simp only [tailsIncomparable, Bool.and_eq_true, Bool.not_eq_true'] at h
    obtain ⟨⟨h1, h2⟩, h3⟩ := h
    cases i with
    | zero => exact ⟨by simpa using h1, by simpa using h2⟩
    | succ i =>
      simp only [List.drop_succ_cons]
      exact ih h3 i (by simpa using hi)

theorem replaceFuel_nil (N R : List Char) (f : Nat) :
    replaceFuel N R f [] = [] := by
  cases f <;> rfl

theorem replaceFuel_congr (N R : List Char) (hN : N ≠ []) :
    ∀ f g s, s.length ≤ f → s.length ≤ g →
      replaceFuel N R f s = replaceFuel N R g s := by
  intro f
  induction f with
  | zero =>
    intro g s hf _
    have : s = [] := by
      cases s with
      | nil => rfl
      | cons c t => simp at hf
    subst this
    rw [replaceFuel_nil, replaceFuel_nil]
  | succ f ih =>
    intro g s hf hg
    cases s with
    | nil => rw [replaceFuel_nil, replaceFuel_nil]
    | cons c t =>
      cases g with
      | zero => simp at hg
      | succ g =>
        show replaceFuel N R (f + 1) (c :: t) = replaceFuel N R (g + 1) (c :: t)
        simp only [replaceFuel]
        by_cases hm : isPre N (c :: t) = true
        · rw [if_pos hm, if_pos hm]
          have hlen : ((c :: t).drop N.length).length ≤ f := by
            have h1 : 1 ≤ N.length := by
              cases N with
              | nil => exact absurd rfl hN
              | cons a p => simp
            simp only [List.length_drop, List.length_cons]
            simp only [List.length_cons] at hf
            omega
          have hleng : ((c :: t).drop N.length).length ≤ g := by
            have h1 : 1 ≤ N.length := by
              cases N with
              | nil => exact absurd rfl hN
              | cons a p => simp
            simp only [List.length_drop, List.length_cons]
            simp only [List.length_cons] at hg
            omega
          rw [ih g ((c :: t).drop N.length) hlen hleng]
        · rw [if_neg hm, if_neg hm]
          have hlen : t.length ≤ f := by simp only [List.length_cons] at hf; omega
          have hleng : t.length ≤ g := by simp only [List.length_cons] at hg; omega
          rw [ih g t hlen hleng]

theorem pyReplace_nil (N R : List Char) (hN : N ≠ []) :
    pyReplace [] N R = [] := by
  unfold pyReplace
  rw [if_neg (by simpa [List.isEmpty_iff] using hN)]
  exact replaceFuel_nil N R 0

theorem pyReplace_cons_nomatch {N : List Char} (R : List Char) {c : Char}
    {t : List Char} (hm : isPre N (c :: t) = false) :
    pyReplace (c :: t) N R = c :: pyReplace t N R := by
  have hN : N ≠ [] := by
    intro h
    subst h
    rw [isPre_nil] at hm
    exact Bool.noConfusion hm
  unfold pyReplace
  rw [if_neg (by simpa [List.isEmpty_iff] using hN),
    if_neg (by simpa [List.isEmpty_iff] using hN)]
  show replaceFuel N R (t.length + 1) (c :: t) = c :: replaceFuel N R t.length t
  simp only [replaceFuel]
  rw [if_neg (by simp [hm])]

theorem pyReplace_match_head (N R u : List Char) (hN : N ≠ []) :
    pyReplace (N ++ u) N R = R ++ pyReplace u N R := by
  unfold pyReplace
  rw [if_neg (by simpa [List.isEmpty_iff] using hN),
    if_neg (by simpa [List.isEmpty_iff] using hN)]
  cases hs : N ++ u with
  | nil =>
    exfalso
    cases N with
    | nil => exact hN rfl
    | cons a p => simp at hs
  | cons c t =>
    rw [← hs]
    have hlen : (N ++ u).length = t.length + 1 := by rw [hs]; simp
    rw [hlen]
    conv_lhs => rw [hs]
    show replaceFuel N R (t.length + 1) (c :: t) = R ++ replaceFuel N R u.length u
    simp only [replaceFuel]
    rw [if_pos (by rw [← hs]; exact isPre_append_self N u)]
    rw [← hs, drop_append_exact]
    congr 1
    apply replaceFuel_congr N R hN
    · have : (N ++ u).length = t.length + 1 := hlen
      have h1 : 1 ≤ N.length := by
        cases N with
        | nil => exact absurd rfl hN
        | cons a p => simp
      simp only [List.length_append] at this
      omega
    · exact Nat.le_refl _

theorem pyReplace_skip (N R : List Char) (hN : N ≠ []) :
    ∀ A rest, (∀ k, k < A.length → ¬ occursAt (A ++ (N ++ rest)) N k) →
      pyReplace (A ++ (N ++ rest)) N R = A ++ (R ++ pyReplace rest N R) := by
  intro A
  induction A with
  | nil =>
    intro rest _
    simpa using pyReplace_match_head N R rest hN
  | cons c A ih =>
    intro rest h
    have h0 : ¬ occursAt ((c :: A) ++ (N ++ rest)) N 0 := h 0 (by simp)
    rw [occursAt_zero] at h0
    have h0f : isPre N (c :: (A ++ (N ++ rest))) = false := by
      simpa using Bool.not_eq_true _ |>.mp h0
    rw [List.cons_append, pyReplace_cons_nomatch R h0f]
    rw [ih rest (fun k hk hocc => h (k + 1) (by simpa using hk)
      ((occursAt_cons_succ c _ N k).mpr hocc))]
    simp

theorem pyReplace_no_occ (N R : List Char) :
    ∀ s, (∀ k, ¬ occursAt s N k) → pyReplace s N R = s := by
  intro s
  induction s with
  | nil =>
    intro h
    have hN : N ≠ [] := by
      intro hnil
      exact h 0 (by simp [occursAt, hnil, isPre_nil])
    exact pyReplace_nil N R hN
  | cons c t ih =>
    intro h
    have h0 : isPre N (c :: t) = false := by
      have := h 0
      rw [occursAt_zero] at this
      simpa using Bool.not_eq_true _ |>.mp this
    rw [pyReplace_cons_nomatch R h0]
    rw [ih (fun k hk => h (k + 1) ((occursAt_cons_succ c t N k).mpr hk))]

theorem length_pos_of_ne_nil {l : List Char} (h : l ≠ []) : 0 < l.length := by
  cases l with
  | nil => exact absurd rfl h
  | cons a t => simp

theorem drop_ne_nil_of_lt {l : List Char} {j : Nat} (h : j < l.length) :
    l.drop j ≠ [] := by
  intro hnil
  have := congrArg List.length hnil
  simp only [List.length_drop, List.length_nil] at this
  omega

theorem noLead_replace (N R : List Char) (hN : N ≠ [])
    (h3 : ∀ j, 0 < j → j < N.length →
      isPre (N.drop j) R = false ∧ isPre R (N.drop j) = false) :
    ∀ n t, t.length ≤ n → ∀ j, 0 < j → j < N.length →
      isPre (N.drop j) t = false → isPre (N.drop j) (pyReplace t N R) = false := by
  intro n
  induction n with
  | zero =>
    intro t ht j hj1 hj2 _
    have : t = [] := by
      cases t with
      | nil => rfl
      | cons c u => simp at ht
    subst this
    rw [pyReplace_nil N R hN]
    cases hD : N.drop j with
    | nil => exact absurd hD (drop_ne_nil_of_lt hj2)
    | cons q Q => simp [isPre]
  | succ n ih =>
    intro t ht j hj1 hj2 hQt
    cases t with
    | nil =>
      rw [pyReplace_nil N R hN]
      cases hD : N.drop j with
      | nil => exact absurd hD (drop_ne_nil_of_lt hj2)
      | cons q Q => simp [isPre]
    | cons c u =>
      by_cases hm : isPre N (c :: u) = true
      · obtain ⟨u2, hu⟩ := (isPre_eq_true_iff N (c :: u)).mp hm
        rw [hu, pyReplace_match_head N R u2 hN]
        by_contra hc
        rw [Bool.not_eq_false] at hc
        rcases isPre_append_cases _ _ _ hc with hcase | hcase
        · rw [(h3 j hj1 hj2).1] at hcase
          exact Bool.noConfusion hcase
        · rw [(h3 j hj1 hj2).2] at hcase
          exact Bool.noConfusion hcase
      · rw [Bool.not_eq_true] at hm
        rw [pyReplace_cons_nomatch R hm]
        cases hD : N.drop j with
        | nil => exact absurd hD (drop_ne_nil_of_lt hj2)
        | cons q Q =>
          have hQ2 : N.drop (j + 1) = Q := by
            rw [← List.drop_drop, hD]
            rfl
          rw [hD] at hQt
          simp only [isPre, Bool.and_eq_true] at hQt ⊢
          by_cases hqc : (q == c) = true
          · rw [hqc]
            simp only [Bool.true_and]
            rw [hqc] at hQt
            simp only [Bool.true_and] at hQt
            cases hQnil : Q with
            | nil =>
              rw [hQnil] at hQt
              rw [isPre_nil] at hQt
              exact Bool.noConfusion hQt
            | cons q2 Q2 =>
              have hjlt : j + 1 < N.length := by
                have : N.drop (j + 1) ≠ [] := by rw [hQ2, hQnil]; simp
                by_contra hle
                push_neg at hle
                exact this (List.drop_eq_nil_of_le hle)
              have := ih u (by simpa using Nat.lt_succ_iff.mp (by
                simpa using Nat.lt_of_lt_of_le (Nat.lt_succ_self u.length)
                  (by simpa using ht))) (j + 1) (by omega) hjlt (by rw [hQ2]; exact hQt)
              rw [hQ2, hQnil] at this
              exact this
          · rw [Bool.not_eq_true] at hqc
            rw [hqc]
            simp

theorem pyReplace_no_new_occ_fuel (N R : List Char) (hN : N ≠ [])
    (h1 : ∀ k, ¬ occursAt R N k)
    (h2 : ∀ i, i < R.length → isPre (R.drop i) N = false)
    (h3 : ∀ j, 0 < j → j < N.length →
      isPre (N.drop j) R = false ∧ isPre R (N.drop j) = false) :
    ∀ n s, s.length ≤ n → ∀ k, ¬ occursAt (pyReplace s N R) N k := by
  intro n
  induction n with
  | zero =>
    intro s hs k
    have : s = [] := by
      cases s with
      | nil => rfl
      | cons c u => simp at hs
    subst this
    rw [pyReplace_nil N R hN]
    intro hk
    unfold occursAt at hk
    rw [List.drop_nil] at hk
    cases N with
    | nil => exact hN rfl
    | cons a p => simp [isPre] at hk
  | succ n ih =>
    intro s hs k
    cases s with
    | nil =>
      rw [pyReplace_nil N R hN]
      intro hk
      unfold occursAt at hk
      rw [List.drop_nil] at hk
      cases N with
      | nil => exact hN rfl
      | cons a p => simp [isPre] at hk
    | cons c u =>
      by_cases hm : isPre N (c :: u) = true
      · obtain ⟨u2, hu⟩ := (isPre_eq_true_iff N (c :: u)).mp hm
        rw [hu, pyReplace_match_head N R u2 hN]
        intro hk
        by_cases hkR : k < R.length
        · unfold occursAt at hk
          rw [List.drop_append_of_le_length (Nat.le_of_lt hkR)] at hk
          rcases isPre_append_cases N (R.drop k) (pyReplace u2 N R) hk with hc | hc
          · exact h1 k hc
          · rw [h2 k hkR] at hc
            exact Bool.noConfusion hc
        · push_neg at hkR
          unfold occursAt at hk
          have hksplit : k = R.length + (k - R.length) := by omega
          rw [hksplit, drop_append_len] at hk
          have hlen : u2.length ≤ n := by
            have hc : (c :: u).length = N.length + u2.length := by
              rw [hu]; simp
            have h1N : 1 ≤ N.length := length_pos_of_ne_nil hN
            simp only [List.length_cons] at hc hs
            omega
          exact ih u2 hlen (k - R.length) hk
      · rw [Bool.not_eq_true] at hm
        rw [pyReplace_cons_nomatch R hm]
        intro hk
        cases k with
        | zero =>
          rw [occursAt_zero] at hk
          cases N with
          | nil => exact hN rfl
          | cons a N2 =>
            simp only [isPre, Bool.and_eq_true, beq_iff_eq] at hk
            obtain ⟨rfl, hN2X⟩ := hk
            cases hN2nil : N2 with
            | nil =>
              rw [hN2nil] at hm
              simp [isPre] at hm
            | cons b N3 =>
              have hd1 : (a :: N2).drop 1 = N2 := rfl
              have hone : 1 < (a :: N2).length := by
                rw [hN2nil]; simp
              have hmu : isPre N2 u = false := by
                simp only [isPre, Bool.and_eq_true] at hm
                cases hiu : isPre N2 u with
                | false => rfl
                | true => rw [hiu] at hm; simp at hm
              have := noLead_replace (a :: N2) R hN h3 u.length u (Nat.le_refl _)
                1 (by omega) hone (by rw [hd1]; exact hmu)
              rw [hd1] at this
              rw [hN2nil] at this hN2X
              rw [this] at hN2X
              exact Bool.noConfusion hN2X
        | succ k =>
          rw [occursAt_cons_succ] at hk
          have hlen : u.length ≤ n := by
            simp only [List.length_cons] at hs
            omega
          exact ih u hlen k hk

theorem pyReplace_no_new_occ (N R : List Char) (hN : N ≠ [])
    (h1 : ∀ k, ¬ occursAt R N k)
    (h2 : ∀ i, i < R.length → isPre (R.drop i) N = false)
    (h3 : ∀ j, 0 < j → j < N.length →
      isPre (N.drop j) R = false ∧ isPre R (N.drop j) = false) :
    ∀ s k, ¬ occursAt (pyReplace s N R) N k := by
  intro s k
  exact pyReplace_no_new_occ_fuel N R hN h1 h2 h3 s.length s (Nat.le_refl _) k

/-- UTF-8 encoding of one unicode scalar value, as the strict Python codec
writes it. -/
def utf8EncodeChar (c : Char) : List Nat :=
  let n := c.toNat
  if n < 0x80 then [n]
  else if n < 0x800 then [0xC0 + n / 0x40, 0x80 + n % 0x40]
  else if n < 0x10000 then
    [0xE0 + n / 0x1000, 0x80 + n / 0x40 % 0x40, 0x80 + n % 0x40]
  else
    [0xF0 + n / 0x40000, 0x80 + n / 0x1000 % 0x40, 0x80 + n / 0x40 % 0x40,
      0x80 + n % 0x40]

/-- UTF-8 encoding of a whole string: the codec step of the text-mode
write. The text-mode translation of `\n` to `os.linesep` that precedes
encoding is modeled separately by `wtranslate`. -/
def utf8Encode : List Char → List Nat
  | [] => []
  | c :: t => utf8EncodeChar c ++ utf8Encode t

/-- Decoding of a single UTF-8 sequence from the front of a byte list,
returning the scalar value and the remaining bytes. Follows the strict
Python codec: stray continuation bytes, overlong forms, surrogates and
values above 0x10FFFF are rejected. -/
def decode1 : List Nat → Option (Nat × List Nat)
  | [] => none
  | b1 :: rest =>
    if b1 < 0x80 then some (b1, rest)
    else if b1 < 0xC2 then none
    else if b1 < 0xE0 then
      match rest with
      | b2 :: rest2 =>
        if 0x80 ≤ b2 ∧ b2 < 0xC0 then
          some ((b1 - 0xC0) * 0x40 + (b2 - 0x80), rest2)
        else none
      | [] => none
    else if b1 < 0xF0 then
      match rest with
      | b2 :: b3 :: rest3 =>
        if (0x80 ≤ b2 ∧ b2 < 0xC0) ∧ (0x80 ≤ b3 ∧ b3 < 0xC0) ∧
            ¬(b1 = 0xE0 ∧ b2 < 0xA0) ∧ ¬(b1 = 0xED ∧ 0xA0 ≤ b2) then
          some ((b1 - 0xE0) * 0x1000 + (b2 - 0x80) * 0x40 + (b3 - 0x80), rest3)
        else none
      | _ => none
    else if b1 < 0xF5 then
      match rest with
      | b2 :: b3 :: b4 :: rest4 =>
        if (0x80 ≤ b2 ∧ b2 < 0xC0) ∧ (0x80 ≤ b3 ∧ b3 < 0xC0) ∧
            (0x80 ≤ b4 ∧ b4 < 0xC0) ∧
            ¬(b1 = 0xF0 ∧ b2 < 0x90) ∧ ¬(b1 = 0xF4 ∧ 0x90 ≤ b2) then
          some ((b1 - 0xF0) * 0x40000 + (b2 - 0x80) * 0x1000 +
            (b3 - 0x80) * 0x40 + (b4 - 0x80), rest4)
        else none
      | _ => none
    else none

/-- Fuel-indexed worker for strict UTF-8 decoding of a whole byte list. -/
def utf8DecodeFuel : Nat → List Nat → Option (List Char)
  | _, [] => some []
  | 0, _ :: _ => none
  | f + 1, b :: r =>
    match decode1 (b :: r) with
    | none => none
    | some (v, rest) => (utf8DecodeFuel f rest).map (fun cs => Char.ofNat v :: cs)

/-- Strict UTF-8 decoding of a byte sequence: the codec step of the
text-mode read. The universal-newline translation that text mode applies
to the decoded characters is modeled separately by `rtranslate`. -/
def utf8Decode (bs : List Nat) : Option (List Char) :=
  utf8DecodeFuel bs.length bs

theorem decode1_length :
    ∀ {bs rest : List Nat} {v : Nat}, decode1 bs = some (v, rest) →
      rest.length < bs.length := by
  intro bs rest v h
  cases bs with
  | nil => simp [decode1] at h
  | cons b1 r =>
    simp only [decode1] at h
    repeat' split at h
    all_goals first
      | exact Option.noConfusion h
      | (injection h with h1
         injection h1 with h2 h3
         subst h3
         simp
         try omega)
theorem char_toNat_ofNat {n : Nat} (h : n.isValidChar) :
    (Char.ofNat n).toNat = n := by
  simp [Char.ofNat, Char.ofNatAux, dif_pos h, Char.toNat, UInt32.toNat]

theorem char_valid_toNat (c : Char) : Nat.isValidChar c.toNat := c.valid

theorem utf8DecodeFuel_congr :
    ∀ f g bs, bs.length ≤ f → bs.length ≤ g →
      utf8DecodeFuel f bs = utf8DecodeFuel g bs := by
  intro f
  induction f with
  | zero =>
    intro g bs hf _
    have : bs = [] := by
      cases bs with
      | nil => rfl
      | cons b r => simp at hf
    subst this
    cases g <;> rfl
  | succ f ih =>
    intro g bs hf hg
    cases bs with
    | nil => cases g <;> rfl
    | cons b r =>
      cases g with
      | zero => simp at hg
      | succ g =>
        show utf8DecodeFuel (f + 1) (b :: r) = utf8DecodeFuel (g + 1) (b :: r)
        simp only [utf8DecodeFuel]
        cases hd : decode1 (b :: r) with
        | none => rfl
        | some p =>
          obtain ⟨v, rest⟩ := p
          have hlen := decode1_length hd
          simp only [List.length_cons] at hlen hf hg
          show Option.map (fun cs => Char.ofNat v :: cs) (utf8DecodeFuel f rest) =
            Option.map (fun cs => Char.ofNat v :: cs) (utf8DecodeFuel g rest)
          rw [ih g rest (by omega) (by omega)]

theorem utf8Decode_cons (b : Nat) (r : List Nat) :
    utf8Decode (b :: r) =
      match decode1 (b :: r) with
      | none => none
      | some (v, rest) => (utf8Decode rest).map (fun cs => Char.ofNat v :: cs) := by
  show utf8DecodeFuel (b :: r).length (b :: r) = _
  simp only [List.length_cons, utf8DecodeFuel]
  cases hd : decode1 (b :: r) with
  | none => rfl
  | some p =>
    obtain ⟨v, rest⟩ := p
    have hlen := decode1_length hd
    simp only [List.length_cons] at hlen
    show (utf8DecodeFuel r.length rest).map _ = (utf8DecodeFuel rest.length rest).map _
    rw [utf8DecodeFuel_congr r.length rest.length rest (by omega) (by omega)]

theorem decode1_one {b1 : Nat} (h : b1 < 0x80) (bs : List Nat) :
    decode1 (b1 :: bs) = some (b1, bs) := by
  simp only [decode1]
  rw [if_pos h]

theorem decode1_two {b1 b2 : Nat} (hb1 : 0xC2 ≤ b1) (hb2 : b1 < 0xE0)
    (hc1 : 0x80 ≤ b2) (hc2 : b2 < 0xC0) (bs : List Nat) :
    decode1 (b1 :: b2 :: bs) =
      some ((b1 - 0xC0) * 0x40 + (b2 - 0x80), bs) := by
  simp only [decode1]
  rw [if_neg (by omega), if_neg (by omega), if_pos (by omega), if_pos ⟨hc1, hc2⟩]

theorem decode1_three {b1 b2 b3 : Nat} (hb1 : 0xE0 ≤ b1) (hb2 : b1 < 0xF0)
    (hc1 : 0x80 ≤ b2) (hc2 : b2 < 0xC0) (hd1 : 0x80 ≤ b3) (hd2 : b3 < 0xC0)
    (hov : ¬(b1 = 0xE0 ∧ b2 < 0xA0)) (hsur : ¬(b1 = 0xED ∧ 0xA0 ≤ b2))
    (bs : List Nat) :
    decode1 (b1 :: b2 :: b3 :: bs) =
      some ((b1 - 0xE0) * 0x1000 + (b2 - 0x80) * 0x40 + (b3 - 0x80), bs) := by
  simp only [decode1]
  rw [if_neg (by omega), if_neg (by omega), if_neg (by omega), if_pos (by omega),
    if_pos ⟨⟨hc1, hc2⟩, ⟨hd1, hd2⟩, hov, hsur⟩]

theorem decode1_four {b1 b2 b3 b4 : Nat} (hb1 : 0xF0 ≤ b1) (hb2 : b1 < 0xF5)
    (hc1 : 0x80 ≤ b2) (hc2 : b2 < 0xC0) (hd1 : 0x80 ≤ b3) (hd2 : b3 < 0xC0)
    (he1 : 0x80 ≤ b4) (he2 : b4 < 0xC0)
    (hov : ¬(b1 = 0xF0 ∧ b2 < 0x90)) (hmax : ¬(b1 = 0xF4 ∧ 0x90 ≤ b2))
    (bs : List Nat) :
    decode1 (b1 :: b2 :: b3 :: b4 :: bs) =
      some ((b1 - 0xF0) * 0x40000 + (b2 - 0x80) * 0x1000 +
        (b3 - 0x80) * 0x40 + (b4 - 0x80), bs) := by
  simp only [decode1]
  rw [if_neg (by omega), if_neg (by omega), if_neg (by omega), if_neg (by omega),
    if_pos (by omega), if_pos ⟨⟨hc1, hc2⟩, ⟨hd1, hd2⟩, ⟨he1, he2⟩, hov, hmax⟩]

theorem utf8Decode_one {b1 : Nat} (h : b1 < 0x80) (bs : List Nat) :
    utf8Decode (b1 :: bs) = (utf8Decode bs).map (fun cs => Char.ofNat b1 :: cs) := by
  rw [utf8Decode_cons, decode1_one h]

theorem utf8Decode_two {b1 b2 : Nat} (hb1 : 0xC2 ≤ b1) (hb2 : b1 < 0xE0)
    (hc1 : 0x80 ≤ b2) (hc2 : b2 < 0xC0) (bs : List Nat) :
    utf8Decode (b1 :: b2 :: bs) =
      (utf8Decode bs).map
        (fun cs => Char.ofNat ((b1 - 0xC0) * 0x40 + (b2 - 0x80)) :: cs) := by
  rw [utf8Decode_cons, decode1_two hb1 hb2 hc1 hc2]

theorem utf8Decode_three {b1 b2 b3 : Nat} (hb1 : 0xE0 ≤ b1) (hb2 : b1 < 0xF0)
    (hc1 : 0x80 ≤ b2) (hc2 : b2 < 0xC0) (hd1 : 0x80 ≤ b3) (hd2 : b3 < 0xC0)
    (hov : ¬(b1 = 0xE0 ∧ b2 < 0xA0)) (hsur : ¬(b1 = 0xED ∧ 0xA0 ≤ b2))
    (bs : List Nat) :
    utf8Decode (b1 :: b2 :: b3 :: bs) =
      (utf8Decode bs).map
        (fun cs => Char.ofNat
          ((b1 - 0xE0) * 0x1000 + (b2 - 0x80) * 0x40 + (b3 - 0x80)) :: cs) := by
  rw [utf8Decode_cons, decode1_three hb1 hb2 hc1 hc2 hd1 hd2 hov hsur]

theorem utf8Decode_four {b1 b2 b3 b4 : Nat} (hb1 : 0xF0 ≤ b1) (hb2 : b1 < 0xF5)
    (hc1 : 0x80 ≤ b2) (hc2 : b2 < 0xC0) (hd1 : 0x80 ≤ b3) (hd2 : b3 < 0xC0)
    (he1 : 0x80 ≤ b4) (he2 : b4 < 0xC0)
    (hov : ¬(b1 = 0xF0 ∧ b2 < 0x90)) (hmax : ¬(b1 = 0xF4 ∧ 0x90 ≤ b2))
    (bs : List Nat) :
    utf8Decode (b1 :: b2 :: b3 :: b4 :: bs) =
      (utf8Decode bs).map
        (fun cs => Char.ofNat
          ((b1 - 0xF0) * 0x40000 + (b2 - 0x80) * 0x1000 +
            (b3 - 0x80) * 0x40 + (b4 - 0x80)) :: cs) := by
  rw [utf8Decode_cons, decode1_four hb1 hb2 hc1 hc2 hd1 hd2 he1 he2 hov hmax]
theorem utf8EncodeChar_eq_one {v : Nat} (h : v < 0x80) :
    utf8EncodeChar (Char.ofNat v) = [v] := by
  have hval : Nat.isValidChar v := by
    simp only [Nat.isValidChar]
    omega
  unfold utf8EncodeChar
  rw [char_toNat_ofNat hval]
  rw [if_pos h]

theorem utf8EncodeChar_eq_two {v : Nat} (h1 : 0x80 ≤ v) (h2 : v < 0x800) :
    utf8EncodeChar (Char.ofNat v) = [0xC0 + v / 0x40, 0x80 + v % 0x40] := by
  have hval : Nat.isValidChar v := by
    simp only [Nat.isValidChar]
    omega
  unfold utf8EncodeChar
  rw [char_toNat_ofNat hval]
  rw [if_neg (by omega), if_pos h2]

theorem utf8EncodeChar_eq_three {v : Nat} (h1 : 0x800 ≤ v) (h2 : v < 0x10000)
    (hval : Nat.isValidChar v) :
    utf8EncodeChar (Char.ofNat v) =
      [0xE0 + v / 0x1000, 0x80 + v / 0x40 % 0x40, 0x80 + v % 0x40] := by
  unfold utf8EncodeChar
  rw [char_toNat_ofNat hval]
  rw [if_neg (by omega), if_neg (by omega), if_pos h2]

theorem utf8EncodeChar_eq_four {v : Nat} (h1 : 0x10000 ≤ v) (h2 : v < 0x110000) :
    utf8EncodeChar (Char.ofNat v) =
      [0xF0 + v / 0x40000, 0x80 + v / 0x1000 % 0x40, 0x80 + v / 0x40 % 0x40,
        0x80 + v % 0x40] := by
  have hval : Nat.isValidChar v := by
    simp only [Nat.isValidChar]
    omega
  unfold utf8EncodeChar
  rw [char_toNat_ofNat hval]
  rw [if_neg (by omega), if_neg (by omega), if_neg (by omega)]

theorem utf8Decode_encodeChar (c : Char) (bs : List Nat) :
    utf8Decode (utf8EncodeChar c ++ bs) = (utf8Decode bs).map (fun cs => c :: cs) := by
  have hv : c.toNat < 0xD800 ∨ (0xDFFF < c.toNat ∧ c.toNat < 0x110000) :=
    char_valid_toNat c
  have hofn : Char.ofNat c.toNat = c := Char.ofNat_toNat c
  rcases Nat.lt_or_ge c.toNat 0x80 with h1 | h1
  · have he : utf8EncodeChar c = [c.toNat] := by
      conv_lhs => rw [← hofn]
      exact utf8EncodeChar_eq_one h1
    rw [he, List.cons_append, List.nil_append, utf8Decode_one h1 bs, hofn]
  · rcases Nat.lt_or_ge c.toNat 0x800 with h2 | h2
    · have he : utf8EncodeChar c =
          [0xC0 + c.toNat / 0x40, 0x80 + c.toNat % 0x40] := by
        conv_lhs => rw [← hofn]
        exact utf8EncodeChar_eq_two h1 h2
      rw [he]
      simp only [List.cons_append, List.nil_append]
      rw [utf8Decode_two (by omega) (by omega) (by omega) (by omega) bs]
      have hveq : (0xC0 + c.toNat / 0x40 - 0xC0) * 0x40 +
          (0x80 + c.toNat % 0x40 - 0x80) = c.toNat := by omega
      rw [hveq, hofn]
    · rcases Nat.lt_or_ge c.toNat 0x10000 with h3 | h3
      · have he : utf8EncodeChar c =
            [0xE0 + c.toNat / 0x1000, 0x80 + c.toNat / 0x40 % 0x40,
              0x80 + c.toNat % 0x40] := by
          conv_lhs => rw [← hofn]
          exact utf8EncodeChar_eq_three h2 h3 (char_valid_toNat c)
        rw [he]
        simp only [List.cons_append, List.nil_append]
        rw [utf8Decode_three (by omega) (by omega) (by omega) (by omega)
          (by omega) (by omega) (by omega) (by omega) bs]
        have hveq : (0xE0 + c.toNat / 0x1000 - 0xE0) * 0x1000 +
            (0x80 + c.toNat / 0x40 % 0x40 - 0x80) * 0x40 +
            (0x80 + c.toNat % 0x40 - 0x80) = c.toNat := by omega
        rw [hveq, hofn]
      · have h4 : c.toNat < 0x110000 := by omega
        have he : utf8EncodeChar c =
            [0xF0 + c.toNat / 0x40000, 0x80 + c.toNat / 0x1000 % 0x40,
              0x80 + c.toNat / 0x40 % 0x40, 0x80 + c.toNat % 0x40] := by
          conv_lhs => rw [← hofn]
          exact utf8EncodeChar_eq_four h3 h4
        rw [he]
        simp only [List.cons_append, List.nil_append]
        rw [utf8Decode_four (by omega) (by omega) (by omega) (by omega)
          (by omega) (by omega) (by omega) (by omega) (by omega) (by omega) bs]
        have hveq : (0xF0 + c.toNat / 0x40000 - 0xF0) * 0x40000 +
            (0x80 + c.toNat / 0x1000 % 0x40 - 0x80) * 0x1000 +
            (0x80 + c.toNat / 0x40 % 0x40 - 0x80) * 0x40 +
            (0x80 + c.toNat % 0x40 - 0x80) = c.toNat := by omega
        rw [hveq, hofn]

theorem utf8Decode_encode (cs : List Char) :
    utf8Decode (utf8Encode cs) = some cs := by
  induction cs with
  | nil => rfl
  | cons c t ih =>
    show utf8Decode (utf8EncodeChar c ++ utf8Encode t) = _
    rw [utf8Decode_encodeChar, ih]
    rfl

theorem decode1_cases {b1 : Nat} {r rest : List Nat} {v : Nat}
    (h : decode1 (b1 :: r) = some (v, rest)) :
    (b1 < 0x80 ∧ v = b1 ∧ rest = r) ∨
    (∃ b2, r = b2 :: rest ∧ 0xC2 ≤ b1 ∧ b1 < 0xE0 ∧ 0x80 ≤ b2 ∧ b2 < 0xC0 ∧
      v = (b1 - 0xC0) * 0x40 + (b2 - 0x80)) ∨
    (∃ b2 b3, r = b2 :: b3 :: rest ∧ 0xE0 ≤ b1 ∧ b1 < 0xF0 ∧
      0x80 ≤ b2 ∧ b2 < 0xC0 ∧ 0x80 ≤ b3 ∧ b3 < 0xC0 ∧
      ¬(b1 = 0xE0 ∧ b2 < 0xA0) ∧ ¬(b1 = 0xED ∧ 0xA0 ≤ b2) ∧
      v = (b1 - 0xE0) * 0x1000 + (b2 - 0x80) * 0x40 + (b3 - 0x80)) ∨
    (∃ b2 b3 b4, r = b2 :: b3 :: b4 :: rest ∧ 0xF0 ≤ b1 ∧ b1 < 0xF5 ∧
      0x80 ≤ b2 ∧ b2 < 0xC0 ∧ 0x80 ≤ b3 ∧ b3 < 0xC0 ∧ 0x80 ≤ b4 ∧ b4 < 0xC0 ∧
      ¬(b1 = 0xF0 ∧ b2 < 0x90) ∧ ¬(b1 = 0xF4 ∧ 0x90 ≤ b2) ∧
      v = (b1 - 0xF0) * 0x40000 + (b2 - 0x80) * 0x1000 +
        (b3 - 0x80) * 0x40 + (b4 - 0x80)) := by
  simp only [decode1] at h
  repeat' split at h
  all_goals try exact Option.noConfusion h
  · injection h with h1
    injection h1 with h2 h3
    exact Or.inl ⟨by omega, h2.symm, h3.symm⟩
  · injection h with h1
    injection h1 with h2 h3
    subst h3
    exact Or.inr (Or.inl ⟨_, rfl, by omega, by omega, by omega, by omega, h2.symm⟩)
  · injection h with h1
    injection h1 with h2 h3
    subst h3
    exact Or.inr (Or.inr (Or.inl ⟨_, _, rfl, by omega, by omega, by omega,
      by omega, by omega, by omega, by omega, by omega, h2.symm⟩))
  · injection h with h1
    injection h1 with h2 h3
    subst h3
    exact Or.inr (Or.inr (Or.inr ⟨_, _, _, rfl, by omega, by omega, by omega,
      by omega, by omega, by omega, by omega, by omega, by omega, by omega,
      h2.symm⟩))

theorem utf8Encode_decode_fuel :
    ∀ n bs cs, bs.length ≤ n → utf8Decode bs = some cs → utf8Encode cs = bs := by
  intro n
  induction n with
  | zero =>
    intro bs cs hlen h
    have hbs : bs = [] := by
      cases bs with
      | nil => rfl
      | cons b r => simp at hlen
    subst hbs
    injection h with h1
    rw [← h1]
    rfl
  | succ n ih =>
    intro bs cs hlen h
    cases bs with
    | nil =>
      injection h with h1
      rw [← h1]
      rfl
    | cons b1 r =>
      rw [utf8Decode_cons] at h
      cases hd : decode1 (b1 :: r) with
      | none =>
        rw [hd] at h
        exact Option.noConfusion h
      | some p =>
        obtain ⟨v, rest⟩ := p
        rw [hd] at h
        have h2 : (utf8Decode rest).map (fun cs => Char.ofNat v :: cs) = some cs := h
        rw [Option.map_eq_some'] at h2
        obtain ⟨cs2, hdec, hcs⟩ := h2
        subst hcs
        have hrlen := decode1_length hd
        simp only [List.length_cons] at hrlen hlen
        have henc : utf8Encode cs2 = rest := ih rest cs2 (by omega) hdec
        show utf8EncodeChar (Char.ofNat v) ++ utf8Encode cs2 = b1 :: r
        rw [henc]
        rcases decode1_cases hd with ⟨hb, hv, hr⟩ | ⟨b2, hr, hbs⟩ |
          ⟨b2, b3, hr, hbs⟩ | ⟨b2, b3, b4, hr, hbs⟩
        · subst hv
          subst hr
          rw [utf8EncodeChar_eq_one hb]
          rfl
        · obtain ⟨hc1, hc2, hc3, hc4, hveq⟩ := hbs
          subst hveq
          subst hr
          rw [utf8EncodeChar_eq_two (by omega) (by omega)]
          simp only [List.cons_append, List.nil_append, List.cons.injEq]
          exact ⟨by omega, by omega, trivial⟩
        · obtain ⟨hc1, hc2, hc3, hc4, hc5, hc6, hov, hsur, hveq⟩ := hbs
          subst hveq
          subst hr
          rw [utf8EncodeChar_eq_three (by omega) (by omega)
            (by simp only [Nat.isValidChar]; omega)]
          simp only [List.cons_append, List.nil_append, List.cons.injEq]
          exact ⟨by omega, by omega, by omega, trivial⟩
        · obtain ⟨hc1, hc2, hc3, hc4, hc5, hc6, hc7, hc8, hov, hmax, hveq⟩ := hbs
          subst hveq
          subst hr
          rw [utf8EncodeChar_eq_four (by omega) (by omega)]
          simp only [List.cons_append, List.nil_append, List.cons.injEq]
          exact ⟨by omega, by omega, by omega, by omega, trivial⟩

theorem utf8Encode_decode {bs : List Nat} {cs : List Char}
    (h : utf8Decode bs = some cs) : utf8Encode cs = bs :=
  utf8Encode_decode_fuel bs.length bs cs (Nat.le_refl _) h

/-- Universal-newline translation applied by Python text-mode reading
(newline=None): a carriage-return line-feed pair and a lone carriage
return both become a line feed. -/
def rtranslate : List Char → List Char
  | [] => []
  | c :: t =>
    if c = '\r' then
      match t with
      | [] => ['\n']
      | d :: t2 =>
        if d = '\n' then '\n' :: rtranslate t2
        else '\n' :: rtranslate (d :: t2)
    else c :: rtranslate t

/-- Newline translation applied by Python text-mode writing
(newline=None): every line feed becomes the platform separator
`os.linesep`. -/
def wtranslate (sep : List Char) : List Char → List Char
  | [] => []
  | c :: t => if c = '\n' then sep ++ wtranslate sep t else c :: wtranslate sep t

theorem rtranslate_cr_lf (t : List Char) :
    rtranslate ('\r' :: '\n' :: t) = '\n' :: rtranslate t := by
  simp [rtranslate]

theorem rtranslate_cr_nil : rtranslate ['\r'] = ['\n'] := by
  simp [rtranslate]

theorem rtranslate_cr_other {d : Char} (h : d ≠ '\n') (t : List Char) :
    rtranslate ('\r' :: d :: t) = '\n' :: rtranslate (d :: t) := by
  simp [rtranslate, h]

theorem rtranslate_other {c : Char} (h : c ≠ '\r') (t : List Char) :
    rtranslate (c :: t) = c :: rtranslate t := by
  cases t with
  | nil => simp [rtranslate, h]
  | cons d t2 => simp [rtranslate, h]

theorem wtranslate_lf : ∀ s, wtranslate ['\n'] s = s := by
  intro s
  induction s with
  | nil => rfl
  | cons c t ih =>
    by_cases hc : c = '\n'
    · subst hc
      simp [wtranslate, ih]
    · simp [wtranslate, hc, ih]

theorem rtranslate_no_cr_fuel :
    ∀ n s, s.length ≤ n → '\r' ∉ rtranslate s := by
  intro n
  induction n with
  | zero =>
    intro s hs
    have : s = [] := by
      cases s with
      | nil => rfl
      | cons c t => simp at hs
    subst this
    simp [rtranslate]
  | succ n ih =>
    intro s hs
    cases s with
    | nil => simp [rtranslate]
    | cons c t =>
      simp only [List.length_cons] at hs
      by_cases hc : c = '\r'
      · subst hc
        cases t with
        | nil =>
          rw [rtranslate_cr_nil]
          decide
        | cons d t2 =>
          simp only [List.length_cons] at hs
          by_cases hd : d = '\n'
          · subst hd
            rw [rtranslate_cr_lf]
            intro hmem
            rcases List.mem_cons.mp hmem with h | h
            · exact absurd h (by decide)
            · exact ih t2 (by omega) h
          · rw [rtranslate_cr_other hd]
            intro hmem
            rcases List.mem_cons.mp hmem with h | h
            · exact absurd h (by decide)
            · exact ih (d :: t2) (by simp; omega) h
      · rw [rtranslate_other hc]
        intro hmem
        rcases List.mem_cons.mp hmem with h | h
        · exact hc h.symm
        · exact ih t (by omega) h

theorem rtranslate_no_cr (s : List Char) : '\r' ∉ rtranslate s :=
  rtranslate_no_cr_fuel s.length s (Nat.le_refl _)

theorem rtranslate_of_no_cr : ∀ s, '\r' ∉ s → rtranslate s = s := by
  intro s
  induction s with
  | nil => intro _; rfl
  | cons c t ih =>
    intro h
    have hc : c ≠ '\r' := by
      intro hc
      exact h (by rw [hc]; exact List.mem_cons_self _ _)
    rw [rtranslate_other hc, ih (fun hm => h (List.mem_cons_of_mem c hm))]

theorem rtranslate_wtranslate {sep : List Char}
    (hsep : sep = ['\n'] ∨ sep = ['\r', '\n']) :
    ∀ s, '\r' ∉ s → rtranslate (wtranslate sep s) = s := by
  intro s
  induction s with
  | nil => intro _; rcases hsep with h | h <;> subst h <;> rfl
  | cons c t ih =>
    intro h
    have hc : c ≠ '\r' := by
      intro hc
      exact h (by rw [hc]; exact List.mem_cons_self _ _)
    have ht : '\r' ∉ t := fun hm => h (List.mem_cons_of_mem c hm)
    by_cases hn : c = '\n'
    · subst hn
      show rtranslate (if ('\n' : Char) = '\n' then sep ++ wtranslate sep t
        else '\n' :: wtranslate sep t) = _
      rw [if_pos rfl]
      rcases hsep with hs | hs <;> subst hs
      · show rtranslate ('\n' :: wtranslate ['\n'] t) = _
        rw [rtranslate_other (by decide), ih ht]
      · show rtranslate ('\r' :: '\n' :: wtranslate ['\r', '\n'] t) = _
        rw [rtranslate_cr_lf, ih ht]
    · show rtranslate (if c = '\n' then sep ++ wtranslate sep t
        else c :: wtranslate sep t) = _
      rw [if_neg hn, rtranslate_other hc, ih ht]

/-- A file on disk: raw byte content plus access flags. -/
structure File where
  bytes : List Nat
  readable : Bool
  writable : Bool
deriving DecidableEq

/-- The filesystem: an association list from paths to files. -/
abbrev FS := List (String × File)

/-- Overwrite the binding of path `p` with file `f`. -/
def fsWrite (fs : FS) (p : String) (f : File) : FS :=
  (p, f) :: fs.filter (fun q => !(q.1 == p))

/-- The error outcomes of the script: FileNotFoundError from opening a
missing path, PermissionError from opening an unreadable or unwritable
file, UnicodeDecodeError from reading bytes that are not valid UTF-8. -/
inductive PatchError where
  | fileNotFound
  | permissionDenied
  | decodeError
deriving DecidableEq

/-- Model of the whole script, parameterised as the spec presents it:
`apply_patch(path, needle, replacement)`, plus the platform line separator
`linesep` (`os.linesep`: line feed on POSIX, carriage return line feed on
Windows) that Python text mode consults on write. Opens `path` for reading
(FileNotFoundError if absent, PermissionError if unreadable), reads the
content, decoding as strict UTF-8 (UnicodeDecodeError if invalid) and
applying universal-newline translation, performs the replacement, reopens
the path for writing (PermissionError if unwritable, and nothing is
written in any error case), and writes the result translated back
(line feed to `linesep`) and re-encoded, truncating the previous content.
Returns the resulting filesystem (unchanged on error) and the error, if
any. -/
def apply_patch (linesep : List Char) (fs : FS) (path : String)
    (needle repl : List Char) : FS × Option PatchError :=
  match List.lookup path fs with
  | none => (fs, some PatchError.fileNotFound)
  | some f =>
    if f.readable = true then
      match utf8Decode f.bytes with
      | none => (fs, some PatchError.decodeError)
      | some t =>
        if f.writable = true then
          (fsWrite fs path
            { f with bytes := utf8Encode (wtranslate linesep
                (pyReplace (rtranslate t) needle repl)) }, none)
        else (fs, some PatchError.permissionDenied)
    else (fs, some PatchError.permissionDenied)

theorem lookup_fsWrite (fs : FS) (p : String) (f : File) :
    List.lookup p (fsWrite fs p f) = some f := by
  simp [fsWrite, List.lookup]

theorem fsWrite_fsWrite (fs : FS) (p : String) (f : File) :
    fsWrite (fsWrite fs p f) p f = fsWrite fs p f := by
  unfold fsWrite
  rw [List.filter_cons]
  simp [List.filter_filter]

theorem apply_patch_run (linesep : List Char) (fs : FS) (path : String)
    (f : File) (needle repl t : List Char)
    (hf : List.lookup path fs = some f) (hr : f.readable = true)
    (hw : f.writable = true) (hdec : utf8Decode f.bytes = some t) :
    apply_patch linesep fs path needle repl =
      (fsWrite fs path
        { f with bytes := utf8Encode (wtranslate linesep
            (pyReplace (rtranslate t) needle repl)) }, none) := by
  unfold apply_patch
  rw [hf]
  show (if f.readable = true then _ else _) = _
  rw [if_pos hr, hdec]
  show (if f.writable = true then _ else _) = _
  rw [if_pos hw]

/-- Hardcoded target path of the script (the Windows path literal). -/
def file_path : String :=
  "e:\\laravel\\packages\\laravel-optimized-queries\\src\\Services\\RelationBuilder.php"

/-- The literal needle of the script: first argument of `content.replace`. -/
def needleText : String :=
  "        if ($callback) \x7b\n            $callback($subQuery);\n        \x7d\n            $wheres = $subQuery->getQuery()->wheres ?? [];\n            if (!empty($wheres)) \x7b\n                $whereClause = \x27 AND \x27 . $this->buildWhereClause($wheres, $relatedTable, $subQuery->getBindings());\n            \x7d\n        \x7d"

/-- The literal replacement of the script: second argument of
`content.replace`. -/
def replacementText : String :=
  "        if ($callback) \x7b\n            $callback($subQuery);\n        \x7d\n        $wheres = $subQuery->getQuery()->wheres ?? [];\n        if (!empty($wheres)) \x7b\n            $whereClause = \x27 AND \x27 . $this->buildWhereClause($wheres, $relatedTable, $subQuery->getBindings());\n        \x7d"

/-- The needle as a character list. -/
def scriptNeedle : List Char := needleText.data

/-- The replacement as a character list. -/
def scriptRepl : List Char := replacementText.data

/-- The whole script as a state transformer on the filesystem: one run of
`fix_relation_builder.py` under the platform separator `linesep` (the
hardcoded drive-letter path suggests the script ran on Windows, where
`linesep` is carriage return line feed). -/
def fix_relation_builder (linesep : List Char) (fs : FS) :
    FS × Option PatchError :=
  apply_patch linesep fs file_path scriptNeedle scriptRepl

theorem h3_of_tailsIncomparable {N R : List Char}
    (h : tailsIncomparable R (N.drop 1) = true) :
    ∀ j, 0 < j → j < N.length →
      isPre (N.drop j) R = false ∧ isPre R (N.drop j) = false := by
  intro j hj1 hj2
  have hlen : j - 1 < (N.drop 1).length := by
    simp only [List.length_drop]
    omega
  have := tailsIncomparable_spec R (N.drop 1) h (j - 1) hlen
  rw [List.drop_drop] at this
  have hj : 1 + (j - 1) = j := by omega
  rw [hj] at this
  exact this

/-- C1: the content transformation of `apply_patch` is a literal
(non-regex) substring replacement replacing every exact, non-overlapping
occurrence of the needle, scanning left to right; in particular, when the
content contains the needle exactly twice without overlap (here: at the
two positions exhibited by the decomposition, and nowhere else), both
occurrences are replaced. -/
theorem pyReplace_replaces_both (N R A B C : List Char) (hN : N ≠ [])
    (honly : ∀ k, occursAt (A ++ (N ++ (B ++ (N ++ C)))) N k →
      k = A.length ∨ k = A.length + N.length + B.length) :
    pyReplace (A ++ (N ++ (B ++ (N ++ C)))) N R = A ++ (R ++ (B ++ (R ++ C))) := by
  have hNlen := length_pos_of_ne_nil hN
  have h1 : ∀ k, k < A.length → ¬ occursAt (A ++ (N ++ (B ++ (N ++ C)))) N k := by
    intro k hk hocc
    rcases honly k hocc with h | h <;> omega
  rw [pyReplace_skip N R hN A (B ++ (N ++ C)) h1]
  congr 1
  congr 1
  have h2 : ∀ k, k < B.length → ¬ occursAt (B ++ (N ++ C)) N k := by
    intro k hk hocc
    have hshift := (occursAt_shift (A ++ N) (B ++ (N ++ C)) N k).mp hocc
    rw [List.append_assoc] at hshift
    rcases honly _ hshift with h | h <;>
      (simp only [List.length_append] at h; omega)
  rw [pyReplace_skip N R hN B C h2]
  congr 1
  congr 1
  apply pyReplace_no_occ
  intro k hocc
  have hshift := (occursAt_shift (A ++ (N ++ (B ++ N))) C N k).mp hocc
  have heq : (A ++ (N ++ (B ++ N))) ++ C = A ++ (N ++ (B ++ (N ++ C))) := by
    simp [List.append_assoc]
  rw [heq] at hshift
  rcases honly _ hshift with h | h <;>
    (simp only [List.length_append] at h; omega)

/-- C1 witness: the content xabyabz contains the needle ab exactly twice,
at positions 1 and 4, and both occurrences are replaced by q. -/
theorem pyReplace_replaces_both_witness :
    pyReplace ("x".data ++ ("ab".data ++ ("y".data ++ ("ab".data ++ "z".data))))
      "ab".data "q".data =
      "x".data ++ ("q".data ++ ("y".data ++ ("q".data ++ "z".data))) := by
  apply pyReplace_replaces_both
  · decide
  · intro k hocc
    have hk := occursAt_lt (s := "x".data ++ ("ab".data ++ ("y".data ++
      ("ab".data ++ "z".data)))) (by decide) hocc
    have hk7 : k < 7 := by simpa using hk
    have hb : ∀ k, k < 7 →
        occursAt ("x".data ++ ("ab".data ++ ("y".data ++ ("ab".data ++ "z".data))))
          "ab".data k →
        k = ("x".data).length ∨
          k = ("x".data).length + ("ab".data).length + ("y".data).length := by
      decide
    exact hb k hk7 hocc

theorem pyReplace_single (N R A B : List Char) (hN : N ≠ [])
    (honly : ∀ k, occursAt (A ++ (N ++ B)) N k → k = A.length) :
    pyReplace (A ++ (N ++ B)) N R = A ++ (R ++ B) := by
  have hNlen := length_pos_of_ne_nil hN
  have h1 : ∀ k, k < A.length → ¬ occursAt (A ++ (N ++ B)) N k := by
    intro k hk hocc
    have := honly k hocc
    omega
  rw [pyReplace_skip N R hN A B h1]
  congr 1
  congr 1
  apply pyReplace_no_occ
  intro k hocc
  have hshift := (occursAt_shift (A ++ N) B N k).mp hocc
  rw [List.append_assoc] at hshift
  have := honly _ hshift
  simp only [List.length_append] at this
  omega

theorem run_notfound (linesep : List Char) (fs : FS) (path : String)
    (N R : List Char) (hnone : List.lookup path fs = none) :
    apply_patch linesep fs path N R = (fs, some PatchError.fileNotFound) := by
  unfold apply_patch
  rw [hnone]

theorem run_unreadable (linesep : List Char) (fs : FS) (path : String)
    (f : File) (N R : List Char)
    (hf : List.lookup path fs = some f) (hr : f.readable = false) :
    apply_patch linesep fs path N R = (fs, some PatchError.permissionDenied) := by
  unfold apply_patch
  rw [hf]
  show (if f.readable = true then _ else _) = _
  rw [if_neg (by simp [hr])]

theorem run_decodeerr (linesep : List Char) (fs : FS) (path : String)
    (f : File) (N R : List Char)
    (hf : List.lookup path fs = some f) (hr : f.readable = true)
    (hdec : utf8Decode f.bytes = none) :
    apply_patch linesep fs path N R = (fs, some PatchError.decodeError) := by
  unfold apply_patch
  rw [hf]
  show (if f.readable = true then _ else _) = _
  rw [if_pos hr, hdec]

theorem run_readonly (linesep : List Char) (fs : FS) (path : String)
    (f : File) (N R t : List Char)
    (hf : List.lookup path fs = some f) (hr : f.readable = true)
    (hdec : utf8Decode f.bytes = some t) (hw : f.writable = false) :
    apply_patch linesep fs path N R = (fs, some PatchError.permissionDenied) := by
  unfold apply_patch
  rw [hf]
  show (if f.readable = true then _ else _) = _
  rw [if_pos hr, hdec]
  show (if f.writable = true then _ else _) = _
  rw [if_neg (by simp [hw])]

/-- C2 counterexample: file bytes 0x0D 0x61 decode to carriage return
followed by a, which is A ++ needle ++ B for A equal to the carriage
return, needle a, B empty, with the needle occurring only at position 1;
yet the run (POSIX separator) does not leave the file equal to
A ++ replacement ++ B, because text mode translates the carriage return
to a line feed. -/
theorem apply_patch_exact_match_cex :
    utf8Decode [0x0D, 0x61] = some ("\r".data ++ ("a".data ++ [])) ∧
    ("\r".data ++ ("a".data ++ ([] : List Char))).length = 2 ∧
    (∀ k, k < 2 → occursAt ("\r".data ++ ("a".data ++ [])) "a".data k →
      k = ("\r".data).length) ∧
    apply_patch ['\n'] [("p", File.mk [0x0D, 0x61] true true)] "p"
        "a".data "z".data ≠
      (fsWrite [("p", File.mk [0x0D, 0x61] true true)] "p"
        { File.mk [0x0D, 0x61] true true with
          bytes := utf8Encode ("\r".data ++ ("z".data ++ [])) }, none) := by
  decide

/-- C2 (amended): if the content read from the file, after UTF-8 decoding
and universal-newline translation, is A ++ needle ++ B with the needle
occurring only at position A.length, then a successful run stores the
UTF-8 encoding of the newline-translated A ++ replacement ++ B; and
provided the replacement introduces no carriage returns, the text read
back from the rewritten file is exactly A ++ replacement ++ B. -/
theorem apply_patch_exact_match (linesep : List Char) (fs : FS)
    (path : String) (f : File) (t A N B R : List Char)
    (hsep : linesep = ['\n'] ∨ linesep = ['\r', '\n'])
    (hf : List.lookup path fs = some f) (hr : f.readable = true)
    (hw : f.writable = true) (hdec : utf8Decode f.bytes = some t)
    (htr : rtranslate t = A ++ (N ++ B)) (hN : N ≠ [])
    (honly : ∀ k, occursAt (A ++ (N ++ B)) N k → k = A.length)
    (hRcr : '\r' ∉ R) :
    apply_patch linesep fs path N R =
      (fsWrite fs path
        { f with bytes :=
            utf8Encode (wtranslate linesep (A ++ (R ++ B))) }, none) ∧
    rtranslate (wtranslate linesep (A ++ (R ++ B))) = A ++ (R ++ B) := by
  constructor
  · rw [apply_patch_run linesep fs path f N R t hf hr hw hdec]
    rw [htr, pyReplace_single N R A B hN honly]
  · apply rtranslate_wtranslate hsep
    intro hmem
    rcases List.mem_append.mp hmem with h | h
    · have : '\r' ∈ rtranslate t := by
        rw [htr]
        exact List.mem_append.mpr (Or.inl h)
      exact rtranslate_no_cr t this
    · rcases List.mem_append.mp h with h2 | h2
      · exact hRcr h2
      · have : '\r' ∈ rtranslate t := by
          rw [htr]
          exact List.mem_append.mpr (Or.inr (List.mem_append.mpr (Or.inr h2)))
        exact rtranslate_no_cr t this

/-- C2 witness: under the Windows separator, a file holding the bytes of
aba with needle b and replacement z is rewritten to the translated
encoding of aza, and reading it back yields aza. -/
theorem apply_patch_exact_match_witness :
    apply_patch ['\r', '\n'] [("p", File.mk [0x61, 0x62, 0x61] true true)]
        "p" "b".data "z".data =
      (fsWrite [("p", File.mk [0x61, 0x62, 0x61] true true)] "p"
        { File.mk [0x61, 0x62, 0x61] true true with
          bytes := utf8Encode (wtranslate ['\r', '\n']
            ("a".data ++ ("z".data ++ "a".data))) }, none) ∧
    rtranslate (wtranslate ['\r', '\n'] ("a".data ++ ("z".data ++ "a".data))) =
      "a".data ++ ("z".data ++ "a".data) := by
  apply apply_patch_exact_match ['\r', '\n'] _ "p" _ "aba".data
    "a".data "b".data "a".data "z".data (Or.inr rfl)
    (by decide) (by decide) (by decide) (by decide) (by decide) (by decide)
  · intro k hocc
    have hk := occursAt_lt (s := "a".data ++ ("b".data ++ "a".data))
      (by decide) hocc
    have hk3 : k < 3 := by simpa using hk
    have hb : ∀ k, k < 3 →
        occursAt ("a".data ++ ("b".data ++ "a".data)) "b".data k →
        k = ("a".data).length := by decide
    exact hb k hk3 hocc
  · decide

/-- C3 counterexample: the bytes 0x78 0x0D 0x79 decode to x, carriage
return, y; the translated content x-linefeed-y contains no occurrence of
the needle q, the run (POSIX separator) succeeds, yet the stored bytes
are not byte-for-byte equal to the input: the carriage return has been
normalized. -/
theorem apply_patch_no_match_cex :
    utf8Decode [0x78, 0x0D, 0x79] = some "x\ry".data ∧
    (∀ k, k < 3 → ¬ occursAt (rtranslate "x\ry".data) "q".data k) ∧
    (apply_patch ['\n'] [("p", File.mk [0x78, 0x0D, 0x79] true true)] "p"
      "q".data "z".data).2 = none ∧
    (List.lookup "p"
      (apply_patch ['\n'] [("p", File.mk [0x78, 0x0D, 0x79] true true)] "p"
        "q".data "z".data).1).map File.bytes ≠ some [0x78, 0x0D, 0x79] := by
  decide

/-- C3 (amended): on content whose translated text contains no occurrence
of the needle, a successful run writes back the newline-translated
encoding of that unchanged text (the replacement step is the identity);
the text read back is unchanged, and the stored bytes are byte-for-byte
equal to the input whenever the original bytes contain no carriage return
and the platform separator is the line feed. -/
theorem apply_patch_no_match (linesep : List Char) (fs : FS) (path : String)
    (f : File) (N R t : List Char)
    (hsep : linesep = ['\n'] ∨ linesep = ['\r', '\n'])
    (hf : List.lookup path fs = some f) (hr : f.readable = true)
    (hw : f.writable = true) (hdec : utf8Decode f.bytes = some t)
    (hno : ∀ k, ¬ occursAt (rtranslate t) N k) :
    apply_patch linesep fs path N R =
      (fsWrite fs path
        { f with bytes :=
            utf8Encode (wtranslate linesep (rtranslate t)) }, none) ∧
    rtranslate (wtranslate linesep (rtranslate t)) = rtranslate t ∧
    ('\r' ∉ t → linesep = ['\n'] →
      fsWrite fs path
        { f with bytes := utf8Encode (wtranslate linesep (rtranslate t)) } =
      fsWrite fs path f) := by
  refine ⟨?_, ?_, ?_⟩
  · rw [apply_patch_run linesep fs path f N R t hf hr hw hdec]
    rw [pyReplace_no_occ N R _ hno]
  · exact rtranslate_wtranslate hsep _ (rtranslate_no_cr t)
  · intro hcr hsep1
    have hb : utf8Encode (wtranslate linesep (rtranslate t)) = f.bytes := by
      rw [hsep1, wtranslate_lf, rtranslate_of_no_cr t hcr,
        utf8Encode_decode hdec]
    rw [hb]

/-- C3 witness: carriage-return-free content xy with absent needle q under
the POSIX separator: the run succeeds and the rewritten file is
byte-for-byte the original. -/
theorem apply_patch_no_match_witness :
    apply_patch ['\n'] [("p", File.mk [0x78, 0x79] true true)] "p"
        "q".data "z".data =
      (fsWrite [("p", File.mk [0x78, 0x79] true true)] "p"
        { File.mk [0x78, 0x79] true true with
          bytes := utf8Encode (wtranslate ['\n'] (rtranslate "xy".data)) },
        none) ∧
    rtranslate (wtranslate ['\n'] (rtranslate "xy".data)) =
      rtranslate "xy".data ∧
    ('\r' ∉ "xy".data → ['\n'] = ['\n'] →
      fsWrite [("p", File.mk [0x78, 0x79] true true)] "p"
        { File.mk [0x78, 0x79] true true with
          bytes := utf8Encode (wtranslate ['\n'] (rtranslate "xy".data)) } =
      fsWrite [("p", File.mk [0x78, 0x79] true true)] "p"
        (File.mk [0x78, 0x79] true true)) := by
  apply apply_patch_no_match ['\n'] _ "p" _ "q".data "z".data "xy".data
    (Or.inl rfl) (by decide) (by decide) (by decide) (by decide)
  exact no_occ_of_bounded (by decide) (by decide)

/-- C4 counterexample: the file holds one line feed; under the Windows
separator (where the hardcoded path places the script) the run succeeds
but the stored bytes are the translated encoding, not the encoding of the
replacement-step output itself. -/
theorem apply_patch_always_writes_cex :
    utf8Decode [0x0A] = some "\n".data ∧
    (apply_patch ['\r', '\n'] [("p", File.mk [0x0A] true true)] "p"
      "q".data "z".data).2 = none ∧
    (List.lookup "p"
      (apply_patch ['\r', '\n'] [("p", File.mk [0x0A] true true)] "p"
        "q".data "z".data).1).map File.bytes =
      some (utf8Encode (wtranslate ['\r', '\n']
        (pyReplace (rtranslate "\n".data) "q".data "z".data))) ∧
    (List.lookup "p"
      (apply_patch ['\r', '\n'] [("p", File.mk [0x0A] true true)] "p"
        "q".data "z".data).1).map File.bytes ≠
      some (utf8Encode (pyReplace (rtranslate "\n".data) "q".data "z".data)) := by
  decide

/-- C4 (amended): every run that reaches the write step (file present,
readable, content decodable, file writable) fully overwrites the target
with exactly the newline-translated encoding of the replacement-step
output, with no condition on whether the needle occurred: the write is
unconditional even on a no-match run. -/
theorem apply_patch_always_writes (linesep : List Char) (fs : FS)
    (path : String) (f : File) (N R t : List Char)
    (hf : List.lookup path fs = some f) (hr : f.readable = true)
    (hw : f.writable = true) (hdec : utf8Decode f.bytes = some t) :
    apply_patch linesep fs path N R =
      (fsWrite fs path
        { f with bytes := utf8Encode (wtranslate linesep
            (pyReplace (rtranslate t) N R)) }, none) :=
  apply_patch_run linesep fs path f N R t hf hr hw hdec

/-- C4 witness: a no-match run (needle q absent from content xy) under the
Windows separator still reaches the write step and overwrites the file
with the translated encoding of the replacement-step output. -/
theorem apply_patch_always_writes_witness :
    apply_patch ['\r', '\n'] [("p", File.mk [0x78, 0x79] true true)] "p"
        "q".data "z".data =
      (fsWrite [("p", File.mk [0x78, 0x79] true true)] "p"
        { File.mk [0x78, 0x79] true true with
          bytes := utf8Encode (wtranslate ['\r', '\n']
            (pyReplace (rtranslate "xy".data) "q".data "z".data)) }, none) :=
  apply_patch_always_writes ['\r', '\n'] _ "p" _ "q".data "z".data "xy".data
    (by decide) (by decide) (by decide) (by decide)

/-- C5 counterexample: with needle a and replacement carriage return, the
preconditions of the claim hold (the strings are distinct and the
first-run output, one carriage return, contains no needle), yet under the
POSIX separator the second run rewrites the stored byte 0x0D to 0x0A:
the file changes. -/
theorem apply_patch_twice_cex :
    "a".data ≠ "\r".data ∧
    (∀ k, k < 1 →
      ¬ occursAt (pyReplace (rtranslate "a".data) "a".data "\r".data)
        "a".data k) ∧
    apply_patch ['\n']
        (apply_patch ['\n'] [("p", File.mk [0x61] true true)] "p"
          "a".data "\r".data).1 "p" "a".data "\r".data ≠
      ((apply_patch ['\n'] [("p", File.mk [0x61] true true)] "p"
        "a".data "\r".data).1, none) := by
  decide

/-- C5 (amended): if needle and replacement are distinct and the content
produced by the first successful run contains no occurrence of the needle
and no carriage return, a second run leaves the filesystem unchanged:
running the operation twice equals running it once. -/
theorem apply_patch_twice (linesep : List Char) (fs : FS) (path : String)
    (f : File) (N R t : List Char)
    (hsep : linesep = ['\n'] ∨ linesep = ['\r', '\n'])
    (hf : List.lookup path fs = some f) (hr : f.readable = true)
    (hw : f.writable = true) (hdec : utf8Decode f.bytes = some t)
    (hdistinct : N ≠ R)
    (hno : ∀ k, ¬ occursAt (pyReplace (rtranslate t) N R) N k)
    (hnocr : '\r' ∉ pyReplace (rtranslate t) N R) :
    apply_patch linesep (apply_patch linesep fs path N R).1 path N R =
      ((apply_patch linesep fs path N R).1, none) := by
  rw [apply_patch_run linesep fs path f N R t hf hr hw hdec]
  rw [apply_patch_run linesep
    (fsWrite fs path
      { f with bytes := utf8Encode (wtranslate linesep
          (pyReplace (rtranslate t) N R)) }) path
    { f with bytes := utf8Encode (wtranslate linesep
        (pyReplace (rtranslate t) N R)) } N R
    (wtranslate linesep (pyReplace (rtranslate t) N R))
    (lookup_fsWrite fs path _) hr hw
    (utf8Decode_encode (wtranslate linesep (pyReplace (rtranslate t) N R)))]
  rw [rtranslate_wtranslate hsep _ hnocr]
  rw [pyReplace_no_occ N R _ hno]
  rw [fsWrite_fsWrite]

/-- C5 witness: content ab, needle a, replacement z under the Windows
separator: the first run produces zb, which contains neither a nor a
carriage return, and the second run changes nothing. -/
theorem apply_patch_twice_witness :
    apply_patch ['\r', '\n']
        (apply_patch ['\r', '\n'] [("p", File.mk [0x61, 0x62] true true)]
          "p" "a".data "z".data).1 "p" "a".data "z".data =
      ((apply_patch ['\r', '\n'] [("p", File.mk [0x61, 0x62] true true)]
        "p" "a".data "z".data).1, none) := by
  apply apply_patch_twice ['\r', '\n'] _ "p"
    (File.mk [0x61, 0x62] true true) "a".data "z".data "ab".data
    (Or.inr rfl) (by decide) (by decide) (by decide) (by decide) (by decide)
  · exact no_occ_of_bounded (by decide) (by decide)
  · decide

/-- C6: when the path does not reference an existing file, the operation
fails with the FileNotFound error and the filesystem is unchanged: no file
is created or modified. -/
theorem apply_patch_missing_file (linesep : List Char) (fs : FS)
    (path : String) (N R : List Char)
    (hnone : List.lookup path fs = none) :
    apply_patch linesep fs path N R = (fs, some PatchError.fileNotFound) :=
  run_notfound linesep fs path N R hnone

/-- C6 witness: running the script operation on an empty filesystem fails
with FileNotFound and leaves the filesystem empty. -/
theorem apply_patch_missing_file_witness :
    apply_patch ['\r', '\n'] [] "p" "a".data "z".data =
      ([], some PatchError.fileNotFound) :=
  apply_patch_missing_file ['\r', '\n'] [] "p" "a".data "z".data (by decide)

/-- C7: on a readable but unwritable target the read step succeeds (the
content decodes), the operation fails with the Permission error at the
write step, and the filesystem is returned unchanged: the original bytes
stay on disk. -/
theorem apply_patch_readonly_file (linesep : List Char) (fs : FS)
    (path : String) (f : File) (N R t : List Char)
    (hf : List.lookup path fs = some f) (hr : f.readable = true)
    (hdec : utf8Decode f.bytes = some t) (hw : f.writable = false) :
    apply_patch linesep fs path N R = (fs, some PatchError.permissionDenied) :=
  run_readonly linesep fs path f N R t hf hr hdec hw

/-- C7 witness: a read-only file with content ab is left untouched and the
run reports a permission error. -/
theorem apply_patch_readonly_file_witness :
    apply_patch ['\r', '\n'] [("p", File.mk [0x61, 0x62] true false)] "p"
        "a".data "z".data =
      ([("p", File.mk [0x61, 0x62] true false)],
        some PatchError.permissionDenied) :=
  apply_patch_readonly_file ['\r', '\n'] _ "p"
    (File.mk [0x61, 0x62] true false) _ _ "ab".data
    (by decide) (by decide) (by decide) (by decide)

/-- C8: when the file bytes are not valid UTF-8, the operation fails with
the Decode error immediately after the read and the filesystem is returned
unchanged: no write occurs on that run. -/
theorem apply_patch_invalid_utf8 (linesep : List Char) (fs : FS)
    (path : String) (f : File) (N R : List Char)
    (hf : List.lookup path fs = some f) (hr : f.readable = true)
    (hdec : utf8Decode f.bytes = none) :
    apply_patch linesep fs path N R = (fs, some PatchError.decodeError) :=
  run_decodeerr linesep fs path f N R hf hr hdec

/-- C8 witness: the single byte 0xFF is not valid UTF-8; the run fails
with the Decode error and no write occurs. -/
theorem apply_patch_invalid_utf8_witness :
    apply_patch ['\r', '\n'] [("p", File.mk [0xFF] true true)] "p"
        "a".data "z".data =
      ([("p", File.mk [0xFF] true true)], some PatchError.decodeError) :=
  apply_patch_invalid_utf8 ['\r', '\n'] _ "p" (File.mk [0xFF] true true) _ _
    (by decide) (by decide) (by decide)

/-- C9: the hardcoded patch rule of the script satisfies the idempotence
precondition: needle and replacement are distinct, the replacement
contains no occurrence of the needle, and (because in addition no new
occurrence can be assembled across replacement boundaries) applying the
content transformation twice to any input equals applying it once. -/
theorem script_rule_idempotent :
    scriptNeedle ≠ scriptRepl ∧
    (∀ k, ¬ occursAt scriptRepl scriptNeedle k) ∧
    ∀ s, pyReplace (pyReplace s scriptNeedle scriptRepl) scriptNeedle
        scriptRepl =
      pyReplace s scriptNeedle scriptRepl := by
  have hN : scriptNeedle ≠ [] := by decide
  have h1 : ∀ k, ¬ occursAt scriptRepl scriptNeedle k :=
    noOcc_spec scriptNeedle hN scriptRepl (by decide)
  have h2 : ∀ i, i < scriptRepl.length →
      isPre (scriptRepl.drop i) scriptNeedle = false :=
    noTailLead_spec scriptNeedle scriptRepl (by decide)
  have h3 := h3_of_tailsIncomparable
    (N := scriptNeedle) (R := scriptRepl) (by decide)
  refine ⟨by decide, h1, ?_⟩
  intro s
  exact pyReplace_no_occ scriptNeedle scriptRepl _
    (fun k => pyReplace_no_new_occ scriptNeedle scriptRepl hN h1 h2 h3 s k)

/-- C10: under a fixed platform separator the run outcome depends only on
the file content and flags: two runs on files with equal bytes and equal
access flags produce the same error outcome and the same bytes stored at
the target path; in particular the post-replacement content is a pure
function of the input content. -/
theorem apply_patch_deterministic (linesep : List Char) (fs1 fs2 : FS)
    (p1 p2 : String) (f1 f2 : File) (N R : List Char)
    (h1 : List.lookup p1 fs1 = some f1) (h2 : List.lookup p2 fs2 = some f2)
    (hb : f1.bytes = f2.bytes) (hrd : f1.readable = f2.readable)
    (hwr : f1.writable = f2.writable) :
    (apply_patch linesep fs1 p1 N R).2 = (apply_patch linesep fs2 p2 N R).2 ∧
    (List.lookup p1 (apply_patch linesep fs1 p1 N R).1).map File.bytes =
      (List.lookup p2 (apply_patch linesep fs2 p2 N R).1).map File.bytes := by
  cases hre : f1.readable with
  | false =>
    rw [run_unreadable linesep fs1 p1 f1 N R h1 hre,
      run_unreadable linesep fs2 p2 f2 N R h2 (by rw [← hrd]; exact hre)]
    exact ⟨rfl, by rw [h1, h2]; simp [hb]⟩
  | true =>
    cases hdec : utf8Decode f1.bytes with
    | none =>
      rw [run_decodeerr linesep fs1 p1 f1 N R h1 hre hdec,
        run_decodeerr linesep fs2 p2 f2 N R h2 (by rw [← hrd]; exact hre)
          (by rw [← hb]; exact hdec)]
      exact ⟨rfl, by rw [h1, h2]; simp [hb]⟩
    | some t =>
      cases hwri : f1.writable with
      | false =>
        rw [run_readonly linesep fs1 p1 f1 N R t h1 hre hdec hwri,
          run_readonly linesep fs2 p2 f2 N R t h2 (by rw [← hrd]; exact hre)
            (by rw [← hb]; exact hdec) (by rw [← hwr]; exact hwri)]
        exact ⟨rfl, by rw [h1, h2]; simp [hb]⟩
      | true =>
        rw [apply_patch_run linesep fs1 p1 f1 N R t h1 hre hwri hdec,
          apply_patch_run linesep fs2 p2 f2 N R t h2
            (by rw [← hrd]; exact hre) (by rw [← hwr]; exact hwri)
            (by rw [← hb]; exact hdec)]
        refine ⟨rfl, ?_⟩
        simp [lookup_fsWrite]

/-- C10 witness: two files at different paths in different filesystems with
equal bytes and flags give the same outcome and the same stored bytes. -/
theorem apply_patch_deterministic_witness :
    (apply_patch ['\r', '\n'] [("p", File.mk [0x61] true true)] "p"
      "a".data "z".data).2 =
      (apply_patch ['\r', '\n'] [("q", File.mk [0x61] true true),
        ("r", File.mk [] true false)] "q" "a".data "z".data).2 ∧
    (List.lookup "p"
      (apply_patch ['\r', '\n'] [("p", File.mk [0x61] true true)] "p"
        "a".data "z".data).1).map File.bytes =
      (List.lookup "q"
        (apply_patch ['\r', '\n'] [("q", File.mk [0x61] true true),
          ("r", File.mk [] true false)] "q" "a".data "z".data).1).map
        File.bytes :=
  apply_patch_deterministic ['\r', '\n'] _ _ "p" "q"
    (File.mk [0x61] true true) (File.mk [0x61] true true) _ _
    (by decide) (by decide) rfl rfl rfl
